import Mathlib

/-!
Verification of the nydus-cli commit pipeline against its specification.

The Go sources are shallowly embedded: pure helpers become Lean functions,
stateful pipelines become explicit state passing, machine integers become
`Int`/`Nat` with Go's truncated division (`Int.tdiv`/`Int.tmod`) where the
source uses `int64`, and fallible code returns `Except`/`Option`.
Strings are embedded as `List Char`.
-/

set_option maxRecDepth 4096

/-! ## Error messages and substring classification (pkg/backend/backend.go) -/

/-- Error values: `none` models a nil Go error, `some m` an error whose
`Error()` string is `m`. -/
abbrev ErrMsg := List Char

/-- `containsSub hay needle` models Go `strings.Contains(hay, needle)`. -/
def containsSub (hay needle : List Char) : Bool :=
  match hay with
  | [] => needle.isPrefixOf []
  | _ :: rest => needle.isPrefixOf hay || containsSub rest needle

/-- The unexposed Go stdlib error substring matched by
`isErrHTTPResponseToHTTPSClient`. -/
def msgHTTPToHTTPSClient : List Char := "server gave HTTP response to HTTPS client".toList

/-- The substring matched by `isErrConnectionRefused`. -/
def msgConnectionRefused : List Char := "connect: connection refused".toList

/-- Embeds `isErrHTTPResponseToHTTPSClient` from pkg/backend/backend.go. -/
def isErrHTTPResponseToHTTPSClient (e : ErrMsg) : Bool :=
  containsSub e msgHTTPToHTTPSClient

/-- Embeds `isErrConnectionRefused` from pkg/backend/backend.go. -/
def isErrConnectionRefused (e : ErrMsg) : Bool :=
  containsSub e msgConnectionRefused

/-- Embeds `remote.RetryWithHTTP`: `err != nil && (isErrHTTPResponseToHTTPSClient(err) || isErrConnectionRefused(err))`. -/
def RetryWithHTTP (e : Option ErrMsg) : Bool :=
  match e with
  | none => false
  | some m => isErrHTTPResponseToHTTPSClient m || isErrConnectionRefused m

/-! ## remote.WithRetry (pkg/backend/backend.go)

The loop is embedded with the remaining `attempts` counter as structural
fuel.  `op i` is the outcome of the i-th invocation of the operation
(`none` = success).  The result records the returned error, the number of
invocations performed, and the list of sleep durations (seconds) in order. -/

structure RetryRun where
  result : Option ErrMsg
  calls : Nat
  sleeps : List Nat
  deriving DecidableEq, Repr

/-- One-to-one embedding of the `for attempts > 0` loop body of
`remote.WithRetry`: check the previous error for the scheme-downgrade
classes, otherwise sleep 2s before the retry, then invoke `op`. -/
def remoteRetryGo (op : Nat → Option ErrMsg) : Nat → Option ErrMsg → Nat → List Nat → RetryRun
  | 0, err, calls, sleeps => ⟨err, calls, sleeps⟩
  | n + 1, err, calls, sleeps =>
    if RetryWithHTTP err then ⟨err, calls, sleeps⟩
    else
      let sleeps' := if err.isSome then sleeps ++ [2] else sleeps
      match op calls with
      | none => ⟨none, calls + 1, sleeps'⟩
      | some e => remoteRetryGo op n (some e) (calls + 1) sleeps'

/-- Embeds `remote.WithRetry` with `defaultRetryAttempts = 3` and
`defaultRetryInterval = 2s`. -/
def remoteWithRetry (op : Nat → Option ErrMsg) : RetryRun :=
  remoteRetryGo op 3 none 0 []

/-! ## workflow.withRetry (pkg/workflow/workflow.go, lines 626-641)

`total` is a Go `int`, so it is embedded as `Int`.  The loop body runs
`total--` first and invokes `handle` unconditionally, so the handler runs
at least once for every `total`. -/

/-- Embedding of the `for` loop of `workflow.withRetry`; `idx` counts the
invocations already performed. -/
def withRetryGo (handle : Nat → Option ErrMsg) (total : Int) (idx : Nat) : Option ErrMsg × Nat :=
  let total' := total - 1
  match handle idx with
  | none => (none, idx + 1)
  | some e =>
    if h : 0 < total' then withRetryGo handle total' (idx + 1) else (some e, idx + 1)
termination_by total.toNat
decreasing_by
  simp only [Int.lt_iff_add_one_le] at h
  omega

/-- Embeds `workflow.withRetry(handle, total)`, returning the final error
and the number of invocations of `handle`. -/
def withRetry (handle : Nat → Option ErrMsg) (total : Int) : Option ErrMsg × Nat :=
  withRetryGo handle total 0

/-! ## splitFileByPartSize (pkg/backend/oss.go, lines 64-91) -/

/-- Embeds `oss.FileChunk` (Number int; Offset, Size int64). -/
structure FileChunk where
  number : Int
  offset : Int
  size : Int
  deriving DecidableEq, Repr

/-- The chunks produced by the `for i := int64(0); i < chunkN; i++` loop
of `splitFileByPartSize`: chunk `i` has Number `i+1`, Offset
`i*chunkSize` and Size `chunkSize`; the loop is empty for a nonpositive
`chunkN = blobSize / chunkSize` (Go truncated division, `Int.tdiv`). -/
def fullChunks (blobSize chunkSize : Int) : List FileChunk :=
  (List.range (Int.tdiv blobSize chunkSize).toNat).map
    (fun (i : Nat) => FileChunk.mk ((i : Int) + 1) ((i : Int) * chunkSize) chunkSize)

/-- Embeds `splitFileByPartSize`: full chunks of `chunkSize` numbered from
1, then a smaller remainder chunk when `blobSize % chunkSize > 0` (Go
truncated modulus, `Int.tmod`); errors when the number of full chunks
reaches 10000. -/
def splitFileByPartSize (blobSize chunkSize : Int) : Except (List Char) (List FileChunk) :=
  if chunkSize ≤ 0 then .error ("invalid chunk size".toList)
  else if 10000 ≤ Int.tdiv blobSize chunkSize then
    .error ("too many parts, please increase chunk size".toList)
  else if 0 < Int.tmod blobSize chunkSize then
    .ok (fullChunks blobSize chunkSize
      ++ [FileChunk.mk (((fullChunks blobSize chunkSize).length : Int) + 1)
            (((fullChunks blobSize chunkSize).length : Int) * chunkSize)
            (Int.tmod blobSize chunkSize)])
  else .ok (fullChunks blobSize chunkSize)

/-! ## Blob packing and pushing (pkg/workflow/workflow.go)

`commitUpperByDiff` and `commitMountByNSEnter` feed one byte stream
through `io.MultiWriter` into the blob file, a SHA-256 digester and a
byte counter.  The stream itself is produced by the external builder
subprocess, so it is abstracted as a list of chunks (`List Nat` bytes);
the hash function is abstracted as a parameter `H`. -/

/-- State of the three writers behind the `io.MultiWriter`. -/
structure PackState where
  fileBytes : List Nat
  hashInput : List Nat
  counted : Nat
  deriving DecidableEq, Repr

/-- One `Write` call on the `io.MultiWriter(blob, digester.Hash(), &counter)`:
the same chunk reaches the blob file, the digester and the counter. -/
def multiWrite (s : PackState) (chunk : List Nat) : PackState :=
  ⟨s.fileBytes ++ chunk, s.hashInput ++ chunk, s.counted + chunk.length⟩

/-- Result of a packer: the blob file's final content, the digest returned
on close, and the counter value. -/
structure PackResult where
  fileBytes : List Nat
  blobDigest : List Nat
  counted : Nat
  deriving DecidableEq, Repr

/-- Embeds the writer plumbing of `commitUpperByDiff`: all chunks written
by the pack/diff pipeline go through the multi-writer; the returned digest
is `H` over the digester's input. -/
def commitUpperByDiff (H : List Nat → List Nat) (writes : List (List Nat)) : PackResult :=
  let st := writes.foldl multiWrite ⟨[], [], 0⟩
  ⟨st.fileBytes, H st.hashInput, st.counted⟩

/-- Embeds the writer plumbing of `commitMountByNSEnter`; the source lists
the counter before the digester in the `io.MultiWriter` call, which feeds
the same chunks to the same three writers. -/
def commitMountByNSEnter (H : List Nat → List Nat) (writes : List (List Nat)) : PackResult :=
  let st := writes.foldl multiWrite ⟨[], [], 0⟩
  ⟨st.fileBytes, H st.hashInput, st.counted⟩

/-- Modelled from the spec: the accelerated-blob media type constant
`utils.MediaTypeNydusBlob` (pkg/nydus/utils is not under src/). -/
def MediaTypeNydusBlob : String := "application/vnd.oci.image.layer.nydus.blob.v1"

/-- The standard gzipped image-layer media type `ocispec.MediaTypeImageLayerGzip`. -/
def MediaTypeImageLayerGzip : String := "application/vnd.oci.image.layer.v1.tar+gzip"

/-- OCI descriptor as used by the workflow: digest, size, media type and
annotations (digests kept abstract as `List Nat`). -/
structure BlobDesc where
  dgst : List Nat
  size : Nat
  mediaType : String
  deriving DecidableEq, Repr

/-- Embeds the descriptor construction of `pushBlob`: the digest field is
the digest handed over by the packer and the size field is
`blobRa.Size()`, the length of the blob file re-opened from the work
directory. -/
def pushBlob (fileContent : List Nat) (blobDigest : List Nat) : BlobDesc :=
  ⟨blobDigest, fileContent.length, MediaTypeNydusBlob⟩

/-! ## committed-blobs annotation (pkg/workflow/workflow.go)

`pullBootstrap` (lines 160-165) counts the comma-separated entries of the
`containerd.io/snapshot/nydus-commit-blobs` annotation; `pushManifest`
(lines 394-412) writes that annotation on the new bootstrap layer. -/

/-- Embeds the counting in `pullBootstrap`: a missing annotation reads as
the empty string and counts 0, otherwise `len(strings.Split(s, ","))`. -/
def committedLayersOf (annot : List Char) : Nat :=
  if annot = [] then 0 else (annot.splitOn ',').length

/-- Embeds the `commitBlobs` slice built in `pushManifest`: the digests of
this commit's mount blobs followed by the upper blob digest. -/
def commitBlobsList (mountBlobDigests : List (List Char)) (upperBlobDigest : List Char) : List (List Char) :=
  mountBlobDigests ++ [upperBlobDigest]

/-- Embeds the value written for the `nydus-commit-blobs` annotation:
`strings.Join(commitBlobs, ",")`. -/
def commitBlobsValue (mountBlobDigests : List (List Char)) (upperBlobDigest : List Char) : List Char :=
  [','].intercalate (commitBlobsList mountBlobDigests upperBlobDigest)

/-! ## Manifest layer and diff-id assembly (pkg/workflow/workflow.go, pushManifest) -/

/-- A manifest-layer descriptor as far as `pushManifest` inspects it:
media type and digest (digest strings as `List Char`). -/
structure LayerDesc where
  mediaType : String
  dgst : List Char
  deriving DecidableEq, Repr

/-- Embeds the `lowerBlobLayers` filter: the base manifest's layers whose
media type is the nydus blob media type. -/
def lowerBlobLayers (baseLayers : List LayerDesc) : List LayerDesc :=
  baseLayers.filter (fun l => l.mediaType == MediaTypeNydusBlob)

/-- Embeds the `config.RootFS.DiffIDs` assembly of `pushManifest`
(lines 318-333). -/
def configDiffIDs (external : Bool) (baseLayers : List LayerDesc)
    (mountBlobDigests : List (List Char)) (upperBlobDigest bootstrapDiffID : List Char) :
    List (List Char) :=
  if external then [bootstrapDiffID]
  else
    ((lowerBlobLayers baseLayers).map (fun l => l.dgst))
      ++ mountBlobDigests ++ [upperBlobDigest] ++ [bootstrapDiffID]

/-- Embeds the manifest `layers` assembly of `pushManifest`
(lines 424-438). -/
def manifestLayers (external : Bool) (baseLayers : List LayerDesc)
    (mountBlobDescs : List LayerDesc) (upperBlobDesc bootstrapDesc : LayerDesc) :
    List LayerDesc :=
  if external then [bootstrapDesc]
  else lowerBlobLayers baseLayers ++ mountBlobDescs ++ [upperBlobDesc] ++ [bootstrapDesc]

/-! ## Commit gate and pause wrapper (pkg/workflow/workflow.go) -/

/-- Observable events of a `Commit` run, in order. -/
inductive CommitEvent where
  | inspectContainer
  | pullBaseBootstrap
  | packerStarted
  | mergeBootstrapEv
  | pushManifestEv
  deriving DecidableEq, Repr

/-- Errors surfaced by the modelled `Commit` fragment. -/
inductive CommitError where
  | maximumCommitsReached (maximumTimes : Int)
  | commitFailed (e : ErrMsg)
  deriving DecidableEq, Repr

/-- Embeds `Commit` from the successful bootstrap pull onward (lines
681-813): the committed-layers gate runs right after the pull and before
the packer wave; `bodyErr` abstracts the outcome of the parallel commit
closure. -/
def commitFromPulledBootstrap (annot : List Char) (maximumTimes : Int) (bodyErr : Option ErrMsg) :
    Option CommitError × List CommitEvent :=
  let committedLayers : Int := committedLayersOf annot
  if maximumTimes ≤ committedLayers then
    (some (.maximumCommitsReached maximumTimes), [.inspectContainer, .pullBaseBootstrap])
  else
    match bodyErr with
    | some e => (some (.commitFailed e), [.inspectContainer, .pullBaseBootstrap, .packerStarted])
    | none =>
      (none, [.inspectContainer, .pullBaseBootstrap, .packerStarted, .mergeBootstrapEv, .pushManifestEv])

/-- Embeds `Workflow.pause` (lines 608-624): the three arguments are the
outcomes of `cm.Pause`, the wrapped `handle`, and `cm.UnPause`.  Returns
the wrapper's error and the number of unpause calls issued. -/
def pauseWrapper (pauseErr handleErr unpauseErr : Option ErrMsg) : Option ErrMsg × Nat :=
  match pauseErr with
  | some e => (some e, 0)
  | none =>
    match handleErr with
    | some e => (some e, 1)
    | none => (unpauseErr, 1)

/-! ## prepareMounts (pkg/workflow/workflow.go, lines 455-504) -/

/-- Embeds `container.Mount`: a source/destination pair. -/
structure ContainerMount where
  source : List Char
  destination : List Char
  deriving DecidableEq, Repr

/-- Embeds `mount.Mount` as constructed by `prepareMounts`. -/
structure BindMount where
  type : List Char
  source : List Char
  target : List Char
  options : List (List Char)
  deriving DecidableEq, Repr

/-- Splits a character list at every occurrence of `c`
(`strings.Split`-style, used to model lexical path operations). -/
def splitOnCharFn (c : Char) : List Char → List (List Char)
  | [] => [[]]
  | a :: rest =>
    match splitOnCharFn c rest with
    | [] => [[]]
    | h :: t => if a = c then [] :: h :: t else (a :: h) :: t

/-- Joins component lists with a separator character (inverse of
`splitOnCharFn`). -/
def joinWithChar (c : Char) : List (List Char) → List Char
  | [] => []
  | [x] => x
  | x :: y :: t => x ++ c :: joinWithChar c (y :: t)

/-- Length of the longest common prefix of two component lists. -/
def commonPrefixLen : List (List Char) → List (List Char) → Nat
  | a :: as, b :: bs => if a = b then commonPrefixLen as bs + 1 else 0
  | _, _ => 0

/-- Modelled from the spec: Go's lexical `filepath.Rel` for already-clean
paths (§4 uses it only on clean absolute container paths): strip the
common component prefix, emit one `..` per leftover base component, and
rejoin; an empty result is `.`. -/
def relPath (base target : List Char) : List Char :=
  let bs := splitOnCharFn '/' base
  let ts := splitOnCharFn '/' target
  let n := commonPrefixLen bs ts
  let parts := List.replicate (bs.length - n) ("..".toList) ++ ts.drop n
  let r := joinWithChar '/' parts
  if r = [] then ".".toList else r

/-- Modelled from the spec: Go's `filepath.Join` for clean operands:
joining with `.` returns the base and empty operands are skipped. -/
def joinPath (s r : List Char) : List Char :=
  if r = ".".toList then s
  else if s = [] then r
  else if r = [] then s
  else s ++ '/' :: r

/-- Embeds `filepath.IsAbs` for slash-rooted paths. -/
def isAbsPath (p : List Char) : Bool :=
  match p with
  | '/' :: _ => true
  | _ => false

/-- Embeds `strings.TrimLeft(targetPath, "/")`. -/
def trimLeftSlashes (p : List Char) : List Char :=
  p.dropWhile (fun c => c = '/')

/-- One iteration of the `findMount` scan: adopt mount `m` when its
destination is a string prefix of the target path and it is at least as
long as the current match. -/
def findMountStep (targetPath : List Char) (matched : Option ContainerMount)
    (m : ContainerMount) : Option ContainerMount :=
  if m.destination.isPrefixOf targetPath then
    match matched with
    | none => some m
    | some prev =>
      if prev.destination.length ≤ m.destination.length then some m else some prev
  else matched

/-- Embeds the `findMount` closure of `prepareMounts`: scan all mounts,
keep the one whose destination is a string prefix of the target path,
replacing the current match whenever a later destination is at least as
long. -/
def findMount (mounts : List ContainerMount) (targetPath : List Char) : Option ContainerMount :=
  mounts.foldl (findMountStep targetPath) none

/-- Embeds one iteration of the `prepareMounts` loop for a single target
path. -/
def prepareMountOne (mounts : List ContainerMount) (targetPath : List Char) :
    Except (List Char) BindMount :=
  if ¬ isAbsPath targetPath then .error ("not a absolute path".toList)
  else
    match findMount mounts targetPath with
    | none => .error ("not found mount path".toList)
    | some m =>
      .ok ⟨"bind".toList,
        joinPath m.source (relPath m.destination targetPath),
        trimLeftSlashes targetPath,
        ["ro".toList, "rbind".toList]⟩

/-- Embeds `prepareMounts`: process target paths in order, stopping at the
first failure. -/
def prepareMounts (mounts : List ContainerMount) : List (List Char) → Except (List Char) (List BindMount)
  | [] => .ok []
  | p :: rest =>
    match prepareMountOne mounts p with
    | .error e => .error e
    | .ok b =>
      match prepareMounts mounts rest with
      | .error e => .error e
      | .ok bs => .ok (b :: bs)

/-! ## AppendNydusSuffix (src/unnamed/part_000, pkg/distribution)

`AppendNydusSuffix` delegates parsing/normalization to the external
`containerd/reference/docker` package (§4.9 of the spec: "parse as a
named image reference; reject digest-pinned inputs; normalize to include
a tag").  That normalization is modelled below from the spec's words. -/

/-- The family suffix `NydusRefSuffix = "_nydus_v2"`. -/
def NydusRefSuffix : List Char := "_nydus_v2".toList

/-- The normalized default registry domain. -/
def defaultDomain : List Char := "docker.io".toList

/-- The legacy registry domain remapped to `docker.io`. -/
def legacyDefaultDomain : List Char := "index.docker.io".toList

/-- The `localhost` domain, treated as a registry host. -/
def localhostDomain : List Char := "localhost".toList

/-- Modelled from the spec: `splitDockerDomain` of the external reference
parser — the part before the first slash is the domain when it looks like
a host (contains a dot or colon, or is `localhost`); otherwise the default
domain applies; single-component `docker.io` repositories get the
`library/` prefix. -/
def splitDockerDomain (s : List Char) : List Char × List Char :=
  let before := s.takeWhile (fun c => c ≠ '/')
  let after := s.dropWhile (fun c => c ≠ '/')
  let (d0, r0) :=
    if after = [] ∨ (¬('.' ∈ before ∨ ':' ∈ before) ∧ before ≠ localhostDomain) then
      (defaultDomain, s)
    else
      (before, after.tail)
  let d1 := if d0 = legacyDefaultDomain then defaultDomain else d0
  let r1 := if d1 = defaultDomain ∧ '/' ∉ r0 then "library/".toList ++ r0 else r0
  (d1, r1)

/-- Splits a repository remainder at its last colon: `some (p, t)` when a
colon exists (candidate tag `t` after it), `none` otherwise. -/
def tagSplitAux : List Char → Option (List Char × List Char)
  | [] => none
  | c :: rest =>
    match tagSplitAux rest with
    | some (p, t) => some (c :: p, t)
    | none => if c = ':' then some ([], rest) else none

/-- A parsed, normalized named reference: domain, tag-free path, and
optional tag. -/
structure NamedRef where
  domain : List Char
  path : List Char
  tag : Option (List Char)
  deriving DecidableEq, Repr

/-- Modelled from the spec: parsing a non-digested reference into a
normalized named reference; the tag (when present) must be nonempty and
slash-free, and the repository path nonempty. -/
def parseNamed (s : List Char) : Except Unit NamedRef :=
  let (d, r) := splitDockerDomain s
  match tagSplitAux r with
  | none => if r = [] then .error () else .ok ⟨d, r, none⟩
  | some (p, t) =>
    if t = [] ∨ '/' ∈ t ∨ p = [] then .error () else .ok ⟨d, p, some t⟩

/-- Modelled from the spec: `docker.TagNameOnly` — add the `latest` tag to
an untagged reference. -/
def tagNameOnly (n : NamedRef) : NamedRef :=
  match n.tag with
  | none => ⟨n.domain, n.path, some ("latest".toList)⟩
  | some _ => n

/-- `named.String()`: the canonical string of a normalized reference. -/
def refString (n : NamedRef) : List Char :=
  n.domain ++ '/' :: n.path ++ (match n.tag with | none => [] | some t => ':' :: t)

/-- Embeds `AppendNydusSuffix` (src/unnamed/part_000, lines 26-40) over
the modelled parser: reject digested references, normalize, return the
input unchanged when the normalized string already ends in the suffix,
otherwise append the suffix to the normalized string. -/
def AppendNydusSuffix (ref : List Char) : Except Unit (List Char) :=
  if '@' ∈ ref then .error ()
  else
    match parseNamed ref with
    | .error _ => .error ()
    | .ok n =>
      let s := refString (tagNameOnly n)
      if NydusRefSuffix.isSuffixOf s then .ok ref
      else .ok (s ++ NydusRefSuffix)

/-! ## Helper lemmas -/

theorem foldl_multiWrite_file_eq_hash (writes : List (List Nat)) :
    ∀ s : PackState, s.fileBytes = s.hashInput →
      (writes.foldl multiWrite s).fileBytes = (writes.foldl multiWrite s).hashInput := by
  induction writes with
  | nil => intro s h; simpa using h
  | cons c rest ih =>
    intro s h
    simp only [List.foldl_cons]
    exact ih _ (by simp [multiWrite, h])

/-! ## Claim theorems -/

/-- C1: for every blob produced by a packer (the upper blob via
`commitUpperByDiff` and each mount blob via `commitMountByNSEnter`), the
digest recorded in the descriptor returned by `pushBlob` is the hash of
the bytes written to the blob file, and the descriptor's size field is
the blob file's length. -/
theorem pushBlob_descriptor_consistent (H : List Nat → List Nat)
    (upperWrites mountWrites : List (List Nat)) :
    (pushBlob (commitUpperByDiff H upperWrites).fileBytes
        (commitUpperByDiff H upperWrites).blobDigest).dgst
        = H (commitUpperByDiff H upperWrites).fileBytes
    ∧ (pushBlob (commitUpperByDiff H upperWrites).fileBytes
        (commitUpperByDiff H upperWrites).blobDigest).size
        = (commitUpperByDiff H upperWrites).fileBytes.length
    ∧ (pushBlob (commitMountByNSEnter H mountWrites).fileBytes
        (commitMountByNSEnter H mountWrites).blobDigest).dgst
        = H (commitMountByNSEnter H mountWrites).fileBytes
    ∧ (pushBlob (commitMountByNSEnter H mountWrites).fileBytes
        (commitMountByNSEnter H mountWrites).blobDigest).size
        = (commitMountByNSEnter H mountWrites).fileBytes.length := by
  have hu := foldl_multiWrite_file_eq_hash upperWrites ⟨[], [], 0⟩ rfl
  have hm := foldl_multiWrite_file_eq_hash mountWrites ⟨[], [], 0⟩ rfl
  refine ⟨?_, rfl, ?_, rfl⟩
  · simp [pushBlob, commitUpperByDiff, hu]
  · simp [pushBlob, commitMountByNSEnter, hm]

/-- C3: when the backend is external, the manifest assembled by
`pushManifest` lists exactly one layer (the bootstrap) and the config's
diff-id list has exactly one entry (the bootstrap diff-id); otherwise
both lists are the base blob layers, then the mount blobs, then the
upper blob, then the bootstrap, in that order. -/
theorem pushManifest_external_composition (baseLayers mountBlobDescs : List LayerDesc)
    (upperBlobDesc bootstrapDesc : LayerDesc)
    (mountBlobDigests : List (List Char)) (upperBlobDigest bootstrapDiffID : List Char) :
    (manifestLayers true baseLayers mountBlobDescs upperBlobDesc bootstrapDesc).length = 1
    ∧ manifestLayers true baseLayers mountBlobDescs upperBlobDesc bootstrapDesc = [bootstrapDesc]
    ∧ (configDiffIDs true baseLayers mountBlobDigests upperBlobDigest bootstrapDiffID).length = 1
    ∧ configDiffIDs true baseLayers mountBlobDigests upperBlobDigest bootstrapDiffID
        = [bootstrapDiffID]
    ∧ manifestLayers false baseLayers mountBlobDescs upperBlobDesc bootstrapDesc
        = lowerBlobLayers baseLayers ++ mountBlobDescs ++ [upperBlobDesc] ++ [bootstrapDesc]
    ∧ configDiffIDs false baseLayers mountBlobDigests upperBlobDigest bootstrapDiffID
        = (lowerBlobLayers baseLayers).map (fun l => l.dgst)
            ++ mountBlobDigests ++ [upperBlobDigest] ++ [bootstrapDiffID] := by
  refine ⟨rfl, rfl, rfl, rfl, rfl, rfl⟩

/-- C5: whenever the engine's pause call succeeds, the pause wrapper
issues the unpause call exactly once on every outcome of the wrapped
commit function, and when the wrapped function fails the wrapper returns
that original failure. -/
theorem pauseWrapper_unpause_once (pauseErr handleErr unpauseErr : Option ErrMsg)
    (hp : pauseErr = none) :
    (pauseWrapper pauseErr handleErr unpauseErr).2 = 1
    ∧ (∀ e, handleErr = some e → (pauseWrapper pauseErr handleErr unpauseErr).1 = some e) := by
  subst hp
  cases handleErr with
  | none => exact ⟨rfl, fun e h => by cases h⟩
  | some e => exact ⟨rfl, fun e' h => by cases h; rfl⟩

/-- C5 witness: pause succeeds, the wrapped commit fails, unpause still
runs once and the wrapper reports the commit's own error. -/
theorem pauseWrapper_unpause_once_witness :
    (pauseWrapper none (some ("commit upper".toList)) (some ("unpause failed".toList))).2 = 1
    ∧ (pauseWrapper none (some ("commit upper".toList)) (some ("unpause failed".toList))).1
        = some ("commit upper".toList) := by
  have h := pauseWrapper_unpause_once none (some ("commit upper".toList))
    (some ("unpause failed".toList)) rfl
  exact ⟨h.1, h.2 _ rfl⟩

/-- C4: if the base bootstrap's committed-blobs annotation holds at least
`maximumTimes` comma-separated entries, `Commit` fails with the
maximum-commits-reached error before any packer is started; below the
maximum that error is never produced; an absent (empty) annotation
counts as zero. -/
theorem Commit_maximumTimes_gate (annot : List Char) (maximumTimes : Int) (bodyErr : Option ErrMsg) :
    (maximumTimes ≤ (committedLayersOf annot : Int) →
      (commitFromPulledBootstrap annot maximumTimes bodyErr).1
          = some (.maximumCommitsReached maximumTimes)
      ∧ CommitEvent.packerStarted ∉ (commitFromPulledBootstrap annot maximumTimes bodyErr).2)
    ∧ ((committedLayersOf annot : Int) < maximumTimes →
      ∀ t, (commitFromPulledBootstrap annot maximumTimes bodyErr).1
          ≠ some (.maximumCommitsReached t))
    ∧ committedLayersOf [] = 0 := by
  refine ⟨fun h => ?_, fun h t => ?_, rfl⟩
  · simp [commitFromPulledBootstrap, h]
  · cases bodyErr with
    | none => simp [commitFromPulledBootstrap, Int.not_le.mpr h]
    | some e => simp [commitFromPulledBootstrap, Int.not_le.mpr h]

/-- C4 witness: a base annotation with two committed digests and
`--maximum-times 2` is refused before any packer starts, while
`--maximum-times 3` admits the commit. -/
theorem Commit_maximumTimes_gate_witness :
    ((commitFromPulledBootstrap ("sha256:a,sha256:b".toList) 2 none).1
        = some (.maximumCommitsReached 2)
      ∧ CommitEvent.packerStarted ∉ (commitFromPulledBootstrap ("sha256:a,sha256:b".toList) 2 none).2)
    ∧ (commitFromPulledBootstrap ("sha256:a,sha256:b".toList) 3 none).1
        ≠ some (.maximumCommitsReached 3) := by
  refine ⟨(Commit_maximumTimes_gate ("sha256:a,sha256:b".toList) 2 none).1 (by decide),
    (Commit_maximumTimes_gate ("sha256:a,sha256:b".toList) 3 none).2.1 (by decide) 3⟩

/-- C2 counterexample: a base bootstrap whose committed-blobs annotation
holds C = 1 digest, a commit with zero mount blobs — the claim predicts
C + 1 + 0 = 2 entries on the new image, but `pushManifest` writes only
this commit's blobs, so the new annotation holds 1 entry. -/
theorem commitBlobs_count_not_cumulative :
    committedLayersOf ("sha256:base0".toList) = 1
    ∧ committedLayersOf (commitBlobsValue [] ("sha256:upper0".toList)) = 1
    ∧ committedLayersOf (commitBlobsValue [] ("sha256:upper0".toList))
        ≠ committedLayersOf ("sha256:base0".toList) + 1 + 0 := by
  refine ⟨by decide, by decide, by decide⟩

/-- C2 (amended): after a successful commit, the committed-blobs
annotation written on the new image's bootstrap layer contains exactly
`1 + (number of mount blobs in this commit)` comma-separated digests —
only this commit's blobs; the base image's count C does not carry over. -/
theorem commitBlobs_annotation_count (mountBlobDigests : List (List Char)) (upperBlobDigest : List Char)
    (hm : ∀ d ∈ mountBlobDigests, ',' ∉ d) (hu : ',' ∉ upperBlobDigest)
    (hne : upperBlobDigest ≠ []) :
    committedLayersOf (commitBlobsValue mountBlobDigests upperBlobDigest)
      = 1 + mountBlobDigests.length := by
  have hx : ∀ l ∈ commitBlobsList mountBlobDigests upperBlobDigest, ',' ∉ l := by
    intro l hl
    rcases List.mem_append.mp hl with h | h
    · exact hm l h
    · simpa [List.mem_singleton.mp h] using hu
  have hls : commitBlobsList mountBlobDigests upperBlobDigest ≠ [] := by
    simp [commitBlobsList]
  have hsplit : (commitBlobsValue mountBlobDigests upperBlobDigest).splitOn ','
      = commitBlobsList mountBlobDigests upperBlobDigest :=
    List.splitOn_intercalate (commitBlobsList mountBlobDigests upperBlobDigest) ',' hx hls
  by_cases hA : commitBlobsValue mountBlobDigests upperBlobDigest = []
  · exfalso
    rw [hA] at hsplit
    have : ([] : List Char).splitOn ',' = [[]] := rfl
    rw [this] at hsplit
    have := hsplit.symm
    rcases List.append_eq_cons_iff.mp this with ⟨h1, h2⟩ | ⟨a, ha, hb⟩
    · exact hne (by simpa using h2)
    · exact absurd hb (by simp)
  · rw [committedLayersOf, if_neg hA, hsplit]
    simp [commitBlobsList, Nat.add_comm]

/-- C2 amended-claim witness: one mount blob and the upper blob yield an
annotation with exactly two digests. -/
theorem commitBlobs_annotation_count_witness :
    committedLayersOf (commitBlobsValue ["sha256:mnt0".toList] ("sha256:upper0".toList))
      = 1 + 1 := by
  exact commitBlobs_annotation_count ["sha256:mnt0".toList] ("sha256:upper0".toList)
    (by decide) (by decide) (by decide)

theorem fullChunks_length (blobSize chunkSize : Int) :
    (fullChunks blobSize chunkSize).length = (Int.tdiv blobSize chunkSize).toNat := by
  rw [fullChunks, List.length_map, List.length_range]

theorem fullChunks_get (blobSize chunkSize : Int) (i : Nat) (hi : i < (fullChunks blobSize chunkSize).length) :
    (fullChunks blobSize chunkSize).get ⟨i, hi⟩
      = FileChunk.mk ((i : Int) + 1) ((i : Int) * chunkSize) chunkSize := by
  simp only [fullChunks, List.get_eq_getElem, List.getElem_map, List.getElem_range]

/-- C7 counterexample: `splitFileByPartSize 19999 2` succeeds with 10000
parts (9999 full chunks plus a remainder chunk), so the list can exceed
9999 parts and the function does not fail when 10000 parts are
required. -/
theorem splitFileByPartSize_reaches_10000_parts :
    ∃ chunks, splitFileByPartSize 19999 2 = .ok chunks
      ∧ chunks.length = 10000 ∧ 9999 < chunks.length := by
  have h1 : ¬ (2 : Int) ≤ 0 := by decide
  have h2 : ¬ (10000 : Int) ≤ Int.tdiv 19999 2 := by decide
  have hr : 0 < Int.tmod 19999 2 := by decide
  have heq : splitFileByPartSize 19999 2
      = .ok (fullChunks 19999 2
        ++ [FileChunk.mk (((fullChunks 19999 2).length : Int) + 1)
              (((fullChunks 19999 2).length : Int) * 2) (Int.tmod 19999 2)]) := by
    simp only [splitFileByPartSize, if_neg h1, if_neg h2, if_pos hr]
  have hlen : (fullChunks 19999 2).length = 9999 := by
    rw [fullChunks_length]; decide
  refine ⟨_, heq, ?_, ?_⟩
  · simp [hlen]
  · simp [hlen]

/-- C7 (amended): for every nonnegative blob size and positive chunk
size, `splitFileByPartSize` fails exactly when `blobSize / chunkSize`
(the count of full chunks) reaches 10000; on success it returns a chunk
list that contiguously partitions `[0, blobSize)` — offsets advance by
the fixed chunk size, every chunk except possibly a smaller final
remainder has the fixed size, numbering runs consecutively from 1 — and
the list never exceeds 10000 parts (not 9999: it reaches 10000 when 9999
full chunks are followed by a remainder). -/
theorem splitFileByPartSize_partition (blobSize chunkSize : Int)
    (h0 : 0 ≤ blobSize) (h1 : 0 < chunkSize) :
    ((∃ msg, splitFileByPartSize blobSize chunkSize = .error msg)
        ↔ 10000 ≤ Int.tdiv blobSize chunkSize)
    ∧ ∀ chunks, splitFileByPartSize blobSize chunkSize = .ok chunks →
        chunks.length ≤ 10000
        ∧ (∀ i (hi : i < chunks.length),
            (chunks.get ⟨i, hi⟩).number = (i : Int) + 1
            ∧ (chunks.get ⟨i, hi⟩).offset = (i : Int) * chunkSize
            ∧ 0 < (chunks.get ⟨i, hi⟩).size)
        ∧ (∀ i (hi : i < chunks.length), i + 1 < chunks.length →
            (chunks.get ⟨i, hi⟩).size = chunkSize)
        ∧ (chunks = [] → blobSize = 0)
        ∧ (∀ hne : chunks ≠ [],
            (chunks.getLast hne).offset + (chunks.getLast hne).size = blobSize) := by
  have hcs : ¬ chunkSize ≤ 0 := not_le.mpr h1
  have hq0 : 0 ≤ Int.tdiv blobSize chunkSize := Int.tdiv_nonneg h0 (le_of_lt h1)
  have hsum : Int.tmod blobSize chunkSize + chunkSize * Int.tdiv blobSize chunkSize = blobSize :=
    Int.tmod_add_tdiv blobSize chunkSize
  have hr0 : 0 ≤ Int.tmod blobSize chunkSize := by
    rw [Int.tmod_eq_emod h0 (le_of_lt h1)]
    exact Int.emod_nonneg blobSize (ne_of_gt h1)
  have hcast : ((Int.tdiv blobSize chunkSize).toNat : Int) = Int.tdiv blobSize chunkSize :=
    Int.toNat_of_nonneg hq0
  by_cases hbig : 10000 ≤ Int.tdiv blobSize chunkSize
  · constructor
    · constructor
      · intro _; exact hbig
      · intro _
        exact ⟨"too many parts, please increase chunk size".toList,
          by simp only [splitFileByPartSize, if_neg hcs, if_pos hbig]⟩
    · intro chunks hok
      exfalso
      simp only [splitFileByPartSize, if_neg hcs, if_pos hbig] at hok
      exact Except.noConfusion hok
  · have hn : (Int.tdiv blobSize chunkSize).toNat ≤ 9999 := by omega
    have hcore : ∀ i (hi : i < (fullChunks blobSize chunkSize).length),
        ((fullChunks blobSize chunkSize).get ⟨i, hi⟩).number = (i : Int) + 1
        ∧ ((fullChunks blobSize chunkSize).get ⟨i, hi⟩).offset = (i : Int) * chunkSize
        ∧ ((fullChunks blobSize chunkSize).get ⟨i, hi⟩).size = chunkSize := by
      intro i hi
      rw [fullChunks_get]
      exact ⟨rfl, rfl, rfl⟩
    constructor
    · constructor
      · rintro ⟨msg, hmsg⟩
        exfalso
        by_cases hr : 0 < Int.tmod blobSize chunkSize
        · simp only [splitFileByPartSize, if_neg hcs, if_neg hbig, if_pos hr] at hmsg
          exact Except.noConfusion hmsg
        · simp only [splitFileByPartSize, if_neg hcs, if_neg hbig, if_neg hr] at hmsg
          exact Except.noConfusion hmsg
      · intro h; exact absurd h hbig
    · intro chunks hok
      have hlenfull : (fullChunks blobSize chunkSize).length
          = (Int.tdiv blobSize chunkSize).toNat := fullChunks_length blobSize chunkSize
      by_cases hr : 0 < Int.tmod blobSize chunkSize
      · simp only [splitFileByPartSize, if_neg hcs, if_neg hbig, if_pos hr,
          Except.ok.injEq] at hok
        subst hok
        have hlen : ((fullChunks blobSize chunkSize)
            ++ [FileChunk.mk (((fullChunks blobSize chunkSize).length : Int) + 1)
                  (((fullChunks blobSize chunkSize).length : Int) * chunkSize)
                  (Int.tmod blobSize chunkSize)]).length
            = (Int.tdiv blobSize chunkSize).toNat + 1 := by
          simp [hlenfull]
        refine ⟨by omega, ?_, ?_, ?_, ?_⟩
        · intro i hi
          by_cases hilt : i < (fullChunks blobSize chunkSize).length
          · rw [List.get_eq_getElem, List.getElem_append_left hilt]
            have h3 := hcore i hilt
            rw [List.get_eq_getElem] at h3
            exact ⟨h3.1, h3.2.1, by rw [h3.2.2]; exact h1⟩
          · have hieq : i = (fullChunks blobSize chunkSize).length := by
              rw [hlen] at hi
              rw [hlenfull] at hilt ⊢
              omega
            rw [List.get_eq_getElem]
            subst hieq
            rw [List.getElem_append_right (le_refl _)]
            simp only [Nat.sub_self]
            exact ⟨by simp, by simp, hr⟩
        · intro i hi hlast
          have hilt : i < (fullChunks blobSize chunkSize).length := by
            rw [hlen] at hlast
            rw [hlenfull]
            omega
          rw [List.get_eq_getElem, List.getElem_append_left hilt]
          have h3 := hcore i hilt
          rw [List.get_eq_getElem] at h3
          exact h3.2.2
        · intro habs
          exact absurd habs (by simp)
        · intro hne
          rw [List.getLast_append_of_ne_nil (List.cons_ne_nil _ _), List.getLast_singleton]
          simp only [hlenfull, hcast]
          have hcomm : Int.tdiv blobSize chunkSize * chunkSize
              = chunkSize * Int.tdiv blobSize chunkSize := Int.mul_comm _ _
          omega
      · simp only [splitFileByPartSize, if_neg hcs, if_neg hbig, if_neg hr,
          Except.ok.injEq] at hok
        subst hok
        have hrz : Int.tmod blobSize chunkSize = 0 := by omega
        refine ⟨by omega, ?_, ?_, ?_, ?_⟩
        · intro i hi
          have h3 := hcore i hi
          exact ⟨h3.1, h3.2.1, by rw [h3.2.2]; exact h1⟩
        · intro i hi _
          exact (hcore i hi).2.2
        · intro habs
          rw [habs] at hlenfull
          simp only [List.length_nil] at hlenfull
          have hq : Int.tdiv blobSize chunkSize = 0 := by omega
          rw [hrz, hq] at hsum
          simpa using hsum.symm
        · intro hne
          have hpos : 0 < (fullChunks blobSize chunkSize).length := List.length_pos.mpr hne
          rw [List.getLast_eq_getElem]
          have hlt : (fullChunks blobSize chunkSize).length - 1
              < (fullChunks blobSize chunkSize).length := by omega
          have h3 := hcore ((fullChunks blobSize chunkSize).length - 1) hlt
          rw [List.get_eq_getElem] at h3
          rw [h3.2.1, h3.2.2]
          have hc1 : (((fullChunks blobSize chunkSize).length - 1 : Nat) : Int)
              = Int.tdiv blobSize chunkSize - 1 := by
            rw [hlenfull]
            omega
          rw [hc1]
          rw [hrz] at hsum
          nlinarith [hsum]

/-- C7 amended-claim witness: blob size 10 with chunk size 3 splits into
three full chunks and a remainder chunk whose end offset is exactly 10. -/
theorem splitFileByPartSize_partition_witness :
    (splitFileByPartSize 10 3 = .ok [FileChunk.mk 1 0 3, FileChunk.mk 2 3 3,
        FileChunk.mk 3 6 3, FileChunk.mk 4 9 1])
    ∧ ([FileChunk.mk 1 0 3, FileChunk.mk 2 3 3, FileChunk.mk 3 6 3,
          FileChunk.mk 4 9 1].getLast (by decide)).offset
        + ([FileChunk.mk 1 0 3, FileChunk.mk 2 3 3, FileChunk.mk 3 6 3,
            FileChunk.mk 4 9 1].getLast (by decide)).size = 10 := by
  have h := splitFileByPartSize_partition 10 3 (by decide) (by decide)
  have hok : splitFileByPartSize 10 3 = .ok [FileChunk.mk 1 0 3, FileChunk.mk 2 3 3,
      FileChunk.mk 3 6 3, FileChunk.mk 4 9 1] := by rfl
  exact ⟨hok, (h.2 _ hok).2.2.2.2 (by decide)⟩

theorem remoteWithRetry_eval (op : Nat → Option ErrMsg) :
    remoteWithRetry op =
      match op 0 with
      | none => ⟨none, 1, []⟩
      | some e0 =>
        if RetryWithHTTP (some e0) then ⟨some e0, 1, []⟩
        else
          match op 1 with
          | none => ⟨none, 2, [2]⟩
          | some e1 =>
            if RetryWithHTTP (some e1) then ⟨some e1, 2, [2]⟩
            else
              match op 2 with
              | none => ⟨none, 3, [2, 2]⟩
              | some e2 => ⟨some e2, 3, [2, 2]⟩ := by
  rcases h0 : op 0 with _ | e0
  · simp [remoteWithRetry, remoteRetryGo, RetryWithHTTP, h0]
  · by_cases hr0 : RetryWithHTTP (some e0)
    · simp [remoteWithRetry, remoteRetryGo, RetryWithHTTP, h0, hr0]
    · rcases h1 : op 1 with _ | e1
      · simp [remoteWithRetry, remoteRetryGo, RetryWithHTTP, h0, h1, hr0]
      · by_cases hr1 : RetryWithHTTP (some e1)
        · simp [remoteWithRetry, remoteRetryGo, RetryWithHTTP, h0, h1, hr0, hr1]
        · rcases h2 : op 2 with _ | e2
          · simp [remoteWithRetry, remoteRetryGo, RetryWithHTTP, h0, h1, h2, hr0, hr1]
          · by_cases hr2 : RetryWithHTTP (some e2)
            · simp [remoteWithRetry, remoteRetryGo, RetryWithHTTP, h0, h1, h2, hr0, hr1, hr2]
            · simp [remoteWithRetry, remoteRetryGo, RetryWithHTTP, h0, h1, h2, hr0, hr1, hr2]

/-- C6: `remote.WithRetry` invokes the operation up to 3 attempts with a
fixed 2-second delay between consecutive attempts; an attempt failing
with one of the two scheme-downgrade error classes ends the retry
immediately with that error; three non-downgrade failures exhaust the
attempts; and `RetryWithHTTP` holds exactly for the two error classes
(HTTP-response-to-HTTPS-client, connection refused). -/
theorem remoteWithRetry_spec (op : Nat → Option ErrMsg) :
    (remoteWithRetry op).calls ≤ 3
    ∧ (remoteWithRetry op).sleeps = List.replicate ((remoteWithRetry op).calls - 1) 2
    ∧ (∀ k e, k < 3 →
        (∀ i, i < k → ∃ ei, op i = some ei ∧ RetryWithHTTP (some ei) = false) →
        op k = some e → RetryWithHTTP (some e) = true →
        (remoteWithRetry op).result = some e ∧ (remoteWithRetry op).calls = k + 1)
    ∧ (∀ e0 e1 e2, op 0 = some e0 → op 1 = some e1 → op 2 = some e2 →
        RetryWithHTTP (some e0) = false → RetryWithHTTP (some e1) = false →
        (remoteWithRetry op).calls = 3 ∧ (remoteWithRetry op).result = some e2)
    ∧ (∀ m, RetryWithHTTP (some m)
        = (containsSub m msgHTTPToHTTPSClient || containsSub m msgConnectionRefused))
    ∧ RetryWithHTTP none = false := by
  have hev := remoteWithRetry_eval op
  refine ⟨?_, ?_, ?_, ?_, fun m => rfl, rfl⟩
  · rw [hev]
    rcases op 0 with _ | e0
    · simp
    · by_cases hr0 : RetryWithHTTP (some e0)
      · simp [hr0]
      · rcases op 1 with _ | e1
        · simp [hr0]
        · by_cases hr1 : RetryWithHTTP (some e1)
          · simp [hr0, hr1]
          · rcases op 2 with _ | e2
            · simp [hr0, hr1]
            · simp [hr0, hr1]
  · rw [hev]
    rcases op 0 with _ | e0
    · simp
    · by_cases hr0 : RetryWithHTTP (some e0)
      · simp [hr0]
      · rcases op 1 with _ | e1
        · simp [hr0, List.replicate]
        · by_cases hr1 : RetryWithHTTP (some e1)
          · simp [hr0, hr1, List.replicate]
          · rcases op 2 with _ | e2
            · simp [hr0, hr1, List.replicate]
            · simp [hr0, hr1, List.replicate]
  · intro k e hk hprev hke hre
    match k with
    | 0 =>
      simp only [hev, hke, if_pos hre]
      exact ⟨trivial, trivial⟩
    | 1 =>
      obtain ⟨e0, he0, hr0⟩ := hprev 0 (by omega)
      simp only [hev, he0, hr0, hke, if_pos hre, Bool.false_eq_true, if_false]
      exact ⟨trivial, trivial⟩
    | 2 =>
      obtain ⟨e0, he0, hr0⟩ := hprev 0 (by omega)
      obtain ⟨e1, he1, hr1⟩ := hprev 1 (by omega)
      simp only [hev, he0, hr0, he1, hr1, hke, Bool.false_eq_true, if_false]
      exact ⟨trivial, trivial⟩
  · intro e0 e1 e2 he0 he1 he2 hr0 hr1
    simp only [hev, he0, hr0, he1, hr1, he2, Bool.false_eq_true, if_false]
    exact ⟨trivial, trivial⟩

/-- C6 witness: an operation that always fails with the connection-refused
class is invoked exactly once; the error is returned with no sleeps. -/
theorem remoteWithRetry_spec_witness :
    (remoteWithRetry (fun _ => some msgConnectionRefused)).result = some msgConnectionRefused
    ∧ (remoteWithRetry (fun _ => some msgConnectionRefused)).calls = 0 + 1
    ∧ (remoteWithRetry (fun _ => some msgConnectionRefused)).sleeps = [] := by
  have h := remoteWithRetry_spec (fun _ => some msgConnectionRefused)
  have h3 := h.2.2.1 0 msgConnectionRefused (by omega) (fun i hi => absurd hi (by omega))
    rfl (by decide)
  refine ⟨h3.1, h3.2, ?_⟩
  have hs := h.2.1
  rw [h3.2] at hs
  simpa using hs

theorem withRetryGo_unfold (handle : Nat → Option ErrMsg) (total : Int) (idx : Nat) :
    withRetryGo handle total idx =
      match handle idx with
      | none => (none, idx + 1)
      | some e =>
        if _ : 0 < total - 1 then withRetryGo handle (total - 1) (idx + 1)
        else (some e, idx + 1) := by
  rw [withRetryGo]

theorem withRetryGo_calls_pos (handle : Nat → Option ErrMsg) :
    ∀ (n : Nat) (total : Int), total.toNat ≤ n → ∀ idx, idx + 1 ≤ (withRetryGo handle total idx).2 := by
  intro n
  induction n with
  | zero =>
    intro total hn idx
    have hlt : ¬ 0 < total - 1 := by omega
    rcases hh : handle idx with _ | e
    · simp only [withRetryGo_unfold handle total idx, hh]
      omega
    · simp only [withRetryGo_unfold handle total idx, hh, dif_neg hlt]
      omega
  | succ n ih =>
    intro total hn idx
    rcases hh : handle idx with _ | e
    · simp only [withRetryGo_unfold handle total idx, hh]
      omega
    · by_cases hlt : 0 < total - 1
      · simp only [withRetryGo_unfold handle total idx, hh, dif_pos hlt]
        have := ih (total - 1) (by omega) (idx + 1)
        omega
      · simp only [withRetryGo_unfold handle total idx, hh, dif_neg hlt]
        omega

theorem withRetryGo_allFail (handle : Nat → Option ErrMsg) (hall : ∀ i, (handle i).isSome) :
    ∀ (n : Nat) (total : Int), total.toNat ≤ n → ∀ idx,
      (withRetryGo handle total idx).2 = idx + (max total 1).toNat
      ∧ (withRetryGo handle total idx).1 = handle (idx + (max total 1).toNat - 1) := by
  intro n
  induction n with
  | zero =>
    intro total hn idx
    obtain ⟨e, he⟩ := Option.isSome_iff_exists.mp (hall idx)
    have hlt : ¬ 0 < total - 1 := by omega
    have hmax : (max total 1).toNat = 1 := by omega
    simp only [withRetryGo_unfold handle total idx, he, dif_neg hlt, hmax]
    refine ⟨trivial, ?_⟩
    rw [Nat.add_sub_cancel, he]
  | succ n ih =>
    intro total hn idx
    obtain ⟨e, he⟩ := Option.isSome_iff_exists.mp (hall idx)
    by_cases hlt : 0 < total - 1
    · simp only [withRetryGo_unfold handle total idx, he, dif_pos hlt]
      have h1 := ih (total - 1) (by omega) (idx + 1)
      have hm : (idx + 1) + (max (total - 1) 1).toNat = idx + (max total 1).toNat := by omega
      refine ⟨by rw [h1.1, hm], ?_⟩
      rw [h1.2]
      have hm2 : (idx + 1) + (max (total - 1) 1).toNat - 1 = idx + (max total 1).toNat - 1 := by
        omega
      rw [hm2]
    · have hmax : (max total 1).toNat = 1 := by omega
      simp only [withRetryGo_unfold handle total idx, he, dif_neg hlt, hmax]
      refine ⟨trivial, ?_⟩
      rw [Nat.add_sub_cancel, he]

theorem withRetryGo_firstSuccess (handle : Nat → Option ErrMsg) :
    ∀ (n : Nat) (total : Int), total.toNat ≤ n → ∀ idx k, ((k : Nat) : Int) < max total 1 →
      (∀ i, i < k → (handle (idx + i)).isSome) → handle (idx + k) = none →
      withRetryGo handle total idx = (none, idx + k + 1) := by
  intro n
  induction n with
  | zero =>
    intro total hn idx k hk hprev hsucc
    have hk0 : k = 0 := by omega
    subst hk0
    rw [Nat.add_zero] at hsucc
    simp only [withRetryGo_unfold handle total idx, hsucc]
  | succ n ih =>
    intro total hn idx k hk hprev hsucc
    match k with
    | 0 =>
      rw [Nat.add_zero] at hsucc
      simp only [withRetryGo_unfold handle total idx, hsucc]
    | j + 1 =>
      obtain ⟨e, he⟩ := Option.isSome_iff_exists.mp (hprev 0 (by omega))
      rw [Nat.add_zero] at he
      have hlt : 0 < total - 1 := by omega
      simp only [withRetryGo_unfold handle total idx, he, dif_pos hlt]
      have hres := ih (total - 1) (by omega) (idx + 1) j (by omega)
        (fun i hi => by
          have h2 := hprev (i + 1) (by omega)
          have harr : idx + 1 + i = idx + (i + 1) := by omega
          rw [harr]
          exact h2)
        (by
          have harr : idx + 1 + j = idx + (j + 1) := by omega
          rw [harr, hsucc])
      rw [hres]
      have harr : idx + 1 + j + 1 = idx + (j + 1) + 1 := by omega
      rw [harr]

theorem withRetryGo_congr (h1 h2 : Nat → Option ErrMsg)
    (hsame : ∀ i, (h1 i).isSome = (h2 i).isSome) :
    ∀ (n : Nat) (total : Int), total.toNat ≤ n → ∀ idx,
      (withRetryGo h1 total idx).2 = (withRetryGo h2 total idx).2 := by
  intro n
  induction n with
  | zero =>
    intro total hn idx
    have hlt : ¬ 0 < total - 1 := by omega
    rcases hh : h1 idx with _ | e <;> rcases hh2 : h2 idx with _ | e2
    · simp only [withRetryGo_unfold h1 total idx, withRetryGo_unfold h2 total idx, hh, hh2]
    · exact absurd ((hsame idx).symm.trans (by rw [hh])) (by rw [hh2]; simp)
    · exact absurd ((hsame idx).trans (by rw [hh2])) (by rw [hh]; simp)
    · simp only [withRetryGo_unfold h1 total idx, withRetryGo_unfold h2 total idx, hh, hh2,
        dif_neg hlt]
  | succ n ih =>
    intro total hn idx
    rcases hh : h1 idx with _ | e <;> rcases hh2 : h2 idx with _ | e2
    · simp only [withRetryGo_unfold h1 total idx, withRetryGo_unfold h2 total idx, hh, hh2]
    · exact absurd ((hsame idx).symm.trans (by rw [hh])) (by rw [hh2]; simp)
    · exact absurd ((hsame idx).trans (by rw [hh2])) (by rw [hh]; simp)
    · by_cases hlt : 0 < total - 1
      · simp only [withRetryGo_unfold h1 total idx, withRetryGo_unfold h2 total idx, hh, hh2,
          dif_pos hlt]
        exact ih (total - 1) (by omega) (idx + 1)
      · simp only [withRetryGo_unfold h1 total idx, withRetryGo_unfold h2 total idx, hh, hh2,
          dif_neg hlt]

/-- C10: `workflow.withRetry(handle, total)` invokes `handle` at least
once for every `total` (zero and negative included); when every
invocation fails it invokes it exactly `max(total, 1)` times and returns
the last error; it returns nil as soon as an invocation succeeds; and its
attempt count depends only on the success/failure pattern — every error
class, including the scheme-downgrade errors that `remote.WithRetry`
treats as terminal, is retried uniformly. -/
theorem withRetry_spec (handle : Nat → Option ErrMsg) (total : Int) :
    1 ≤ (withRetry handle total).2
    ∧ ((∀ i, (handle i).isSome) →
        (((withRetry handle total).2 : Nat) : Int) = max total 1
        ∧ (withRetry handle total).1 = handle ((withRetry handle total).2 - 1))
    ∧ (∀ k, ((k : Nat) : Int) < max total 1 → (∀ i, i < k → (handle i).isSome) →
        handle k = none →
        (withRetry handle total).1 = none ∧ (withRetry handle total).2 = k + 1)
    ∧ (∀ handle2 : Nat → Option ErrMsg, (∀ i, (handle i).isSome = (handle2 i).isSome) →
        (withRetry handle2 total).2 = (withRetry handle total).2) := by
  refine ⟨?_, fun hall => ?_, fun k hk hprev hsucc => ?_, fun handle2 hsame => ?_⟩
  · exact withRetryGo_calls_pos handle total.toNat total (le_refl _) 0
  · have h := withRetryGo_allFail handle hall total.toNat total (le_refl _) 0
    rw [Nat.zero_add] at h
    have hmx : 1 ≤ max total 1 := le_max_right _ _
    refine ⟨?_, ?_⟩
    · rw [withRetry, h.1]
      omega
    · rw [withRetry, h.2, h.1]
  · have h := withRetryGo_firstSuccess handle total.toNat total (le_refl _) 0 k hk
      (fun i hi => by
        have := hprev i hi
        rw [Nat.zero_add]
        exact this)
      (by rw [Nat.zero_add]; exact hsucc)
    rw [withRetry, h]
    exact ⟨rfl, by rw [Nat.zero_add]⟩
  · exact (withRetryGo_congr handle handle2 hsame total.toNat total (le_refl _) 0).symm

/-- C10 witness: a handler that always fails with the connection-refused
scheme-downgrade error is still invoked 3 times by `withRetry(·, 3)` and
the last error is returned. -/
theorem withRetry_spec_witness :
    (withRetry (fun _ => some msgConnectionRefused) 3).2 = 3
    ∧ (withRetry (fun _ => some msgConnectionRefused) 3).1 = some msgConnectionRefused := by
  have h := (withRetry_spec (fun _ => some msgConnectionRefused) 3).2.1 (fun i => rfl)
  have h2 : (withRetry (fun _ => some msgConnectionRefused) 3).2 = 3 := by
    have h1 := h.1
    omega
  exact ⟨h2, by rw [h.2]⟩

theorem splitOnCharFn_ne_nil (c : Char) (l : List Char) : splitOnCharFn c l ≠ [] := by
  cases l with
  | nil => simp [splitOnCharFn]
  | cons a rest =>
    simp only [splitOnCharFn]
    rcases splitOnCharFn c rest with _ | ⟨h, t⟩
    · simp
    · by_cases hac : a = c
      · simp [hac]
      · simp [hac]

theorem splitOnCharFn_append (c : Char) (r : List Char) :
    ∀ l : List Char, splitOnCharFn c (l ++ c :: r) = splitOnCharFn c l ++ splitOnCharFn c r := by
  intro l
  induction l with
  | nil =>
    simp only [List.nil_append, splitOnCharFn]
    obtain ⟨h, t, hht⟩ := List.exists_cons_of_ne_nil (splitOnCharFn_ne_nil c r)
    rw [hht]
    simp
  | cons a l' ih =>
    obtain ⟨h, t, hht⟩ := List.exists_cons_of_ne_nil (splitOnCharFn_ne_nil c l')
    have hstep : (a :: l') ++ c :: r = a :: (l' ++ c :: r) := rfl
    rw [hstep]
    by_cases hac : a = c
    · simp only [splitOnCharFn, ih, hht, if_pos hac]
      rfl
    · simp only [splitOnCharFn, ih, hht, if_neg hac]
      rfl

theorem joinWithChar_cons_cons (c : Char) (a : Char) (h : List Char) (t : List (List Char)) :
    joinWithChar c ((a :: h) :: t) = a :: joinWithChar c (h :: t) := by
  cases t with
  | nil => rfl
  | cons y t' => rfl

theorem joinWithChar_splitOnCharFn (c : Char) :
    ∀ l : List Char, joinWithChar c (splitOnCharFn c l) = l := by
  intro l
  induction l with
  | nil => rfl
  | cons a rest ih =>
    simp only [splitOnCharFn]
    obtain ⟨h, t, hht⟩ := List.exists_cons_of_ne_nil (splitOnCharFn_ne_nil c rest)
    rw [hht]
    rw [hht] at ih
    by_cases hac : a = c
    · simp only [if_pos hac, joinWithChar, hac]
      rw [ih]
      rfl
    · simp only [if_neg hac]
      rw [joinWithChar_cons_cons, ih]

theorem commonPrefixLen_append_self :
    ∀ (bs xs : List (List Char)), commonPrefixLen bs (bs ++ xs) = bs.length := by
  intro bs xs
  induction bs with
  | nil => rfl
  | cons b bs' ih =>
    simp [commonPrefixLen, ih]

theorem relPath_under (d rest : List Char) (hrne : rest ≠ []) :
    relPath d (d ++ '/' :: rest) = rest := by
  have hsplit : splitOnCharFn '/' (d ++ '/' :: rest)
      = splitOnCharFn '/' d ++ splitOnCharFn '/' rest := splitOnCharFn_append '/' rest d
  have hjoin : joinWithChar '/' (splitOnCharFn '/' rest) = rest := joinWithChar_splitOnCharFn '/' rest
  simp only [relPath, hsplit, commonPrefixLen_append_self, Nat.sub_self, List.replicate_zero,
    List.nil_append, List.drop_left, hjoin, if_neg hrne]

theorem trimLeftSlashes_cons (q : List Char) (hq : q.head? ≠ some '/') :
    trimLeftSlashes ('/' :: q) = q := by
  cases q with
  | nil => rfl
  | cons a q' =>
    have ha : ¬ (a = '/') := by
      intro hcontra
      exact hq (by rw [hcontra]; rfl)
    simp [trimLeftSlashes, List.dropWhile, ha]

theorem findMountStep_none (p : List Char) (x : ContainerMount) :
    findMountStep p none x = if x.destination.isPrefixOf p then some x else none := by
  by_cases hx : x.destination.isPrefixOf p <;> simp [findMountStep, hx]

theorem findMountStep_some (p : List Char) (x prev : ContainerMount) :
    findMountStep p (some prev) x =
      if x.destination.isPrefixOf p then
        (if prev.destination.length ≤ x.destination.length then some x else some prev)
      else some prev := by
  by_cases hx : x.destination.isPrefixOf p <;> simp [findMountStep, hx]

theorem findMount_go (p : List Char) :
    ∀ (mounts : List ContainerMount) (acc : Option ContainerMount),
      (∀ a, acc = some a → a.destination.isPrefixOf p = true) →
      ∀ m, mounts.foldl (findMountStep p) acc = some m →
        m.destination.isPrefixOf p = true
        ∧ (m ∈ mounts ∨ acc = some m)
        ∧ (∀ m' ∈ mounts, m'.destination.isPrefixOf p = true →
            m'.destination.length ≤ m.destination.length)
        ∧ (∀ a, acc = some a → a.destination.length ≤ m.destination.length) := by
  intro mounts
  induction mounts with
  | nil =>
    intro acc hacc m hm
    simp only [List.foldl_nil] at hm
    exact ⟨hacc m hm, Or.inr hm, by simp, fun a ha => by rw [hm] at ha; cases ha; exact le_refl _⟩
  | cons x xs ih =>
    intro acc hacc m hm
    simp only [List.foldl_cons] at hm
    rcases hq : acc with _ | prev
    · subst hq
      by_cases hx : x.destination.isPrefixOf p = true
      · rw [findMountStep_none, if_pos hx] at hm
        have hres := ih (some x) (fun a ha => by cases ha; exact hx) m hm
        refine ⟨hres.1, ?_, ?_, fun a ha => by cases ha⟩
        · rcases hres.2.1 with hmem | heq
          · exact Or.inl (List.mem_cons_of_mem _ hmem)
          · cases heq
            exact Or.inl (List.mem_cons_self _ _)
        · intro m' hm' hpre
          rcases List.mem_cons.mp hm' with hmx | hmxs
          · subst hmx
            exact hres.2.2.2 m' rfl
          · exact hres.2.2.1 m' hmxs hpre
      · rw [findMountStep_none, if_neg hx] at hm
        have hres := ih none (fun a ha => by cases ha) m hm
        refine ⟨hres.1, ?_, ?_, fun a ha => by cases ha⟩
        · rcases hres.2.1 with hmem | heq
          · exact Or.inl (List.mem_cons_of_mem _ hmem)
          · cases heq
        · intro m' hm' hpre
          rcases List.mem_cons.mp hm' with hmx | hmxs
          · subst hmx
            exact absurd hpre hx
          · exact hres.2.2.1 m' hmxs hpre
    · subst hq
      by_cases hx : x.destination.isPrefixOf p = true
      · rw [findMountStep_some, if_pos hx] at hm
        by_cases hle : prev.destination.length ≤ x.destination.length
        · rw [if_pos hle] at hm
          have hres := ih (some x) (fun a ha => by cases ha; exact hx) m hm
          refine ⟨hres.1, ?_, ?_, ?_⟩
          · rcases hres.2.1 with hmem | heq
            · exact Or.inl (List.mem_cons_of_mem _ hmem)
            · cases heq
              exact Or.inl (List.mem_cons_self _ _)
          · intro m' hm' hpre
            rcases List.mem_cons.mp hm' with hmx | hmxs
            · subst hmx
              exact hres.2.2.2 m' rfl
            · exact hres.2.2.1 m' hmxs hpre
          · intro a ha
            cases ha
            exact le_trans hle (hres.2.2.2 x rfl)
        · rw [if_neg hle] at hm
          have hres := ih (some prev) (fun a ha => by cases ha; exact hacc prev rfl) m hm
          refine ⟨hres.1, ?_, ?_, ?_⟩
          · rcases hres.2.1 with hmem | heq
            · exact Or.inl (List.mem_cons_of_mem _ hmem)
            · exact Or.inr heq
          · intro m' hm' hpre
            rcases List.mem_cons.mp hm' with hmx | hmxs
            · subst hmx
              have h1 := hres.2.2.2 prev rfl
              omega
            · exact hres.2.2.1 m' hmxs hpre
          · intro a ha
            cases ha
            exact hres.2.2.2 prev rfl
      · rw [findMountStep_some, if_neg hx] at hm
        have hres := ih (some prev) (fun a ha => by cases ha; exact hacc prev rfl) m hm
        refine ⟨hres.1, ?_, ?_, ?_⟩
        · rcases hres.2.1 with hmem | heq
          · exact Or.inl (List.mem_cons_of_mem _ hmem)
          · exact Or.inr heq
        · intro m' hm' hpre
          rcases List.mem_cons.mp hm' with hmx | hmxs
          · subst hmx
            exact absurd hpre hx
          · exact hres.2.2.1 m' hmxs hpre
        · intro a ha
          cases ha
          exact hres.2.2.2 prev rfl

theorem findMount_spec (mounts : List ContainerMount) (p : List Char) (m : ContainerMount)
    (hm : findMount mounts p = some m) :
    m.destination.isPrefixOf p = true
    ∧ m ∈ mounts
    ∧ (∀ m' ∈ mounts, m'.destination.isPrefixOf p = true →
        m'.destination.length ≤ m.destination.length) := by
  have h := findMount_go p mounts none (fun a ha => by cases ha) m hm
  refine ⟨h.1, ?_, h.2.2.1⟩
  rcases h.2.1 with hmem | heq
  · exact hmem
  · cases heq

theorem prepareMounts_ok_get (mounts : List ContainerMount) :
    ∀ (ps : List (List Char)) (outs : List BindMount),
      prepareMounts mounts ps = .ok outs →
      outs.length = ps.length
      ∧ ∀ i (h1 : i < ps.length) (h2 : i < outs.length),
          prepareMountOne mounts (ps.get ⟨i, h1⟩) = .ok (outs.get ⟨i, h2⟩) := by
  intro ps
  induction ps with
  | nil =>
    intro outs hok
    simp only [prepareMounts, Except.ok.injEq] at hok
    subst hok
    exact ⟨rfl, fun i h1 h2 => absurd h1 (by simp)⟩
  | cons p ps' ih =>
    intro outs hok
    simp only [prepareMounts] at hok
    rcases hone : prepareMountOne mounts p with e | b
    · rw [hone] at hok
      exact Except.noConfusion hok
    · rw [hone] at hok
      rcases hrest : prepareMounts mounts ps' with e | bs
    
      · rw [hrest] at hok
        exact Except.noConfusion hok
      · rw [hrest] at hok
        have houts := (Except.ok.inj hok).symm
        subst houts
        have hres := ih bs hrest
        refine ⟨by simp [hres.1], ?_⟩
        intro i h1 h2
        match i with
        | 0 => exact hone
        | j + 1 =>
          have h1' : j < ps'.length := by simpa using h1
          have h2' : j < bs.length := by simpa using h2
          exact hres.2 j h1' h2'

theorem prepareMountOne_under (mounts : List ContainerMount) (p : List Char)
    (m : ContainerMount) (dt rest : List Char)
    (hfind : findMount mounts p = some m)
    (hd : m.destination = '/' :: dt)
    (hdne : dt ≠ [])
    (hdh : dt.head? ≠ some '/')
    (hs : m.source ≠ [])
    (hp : p = m.destination ++ '/' :: rest)
    (hrne : rest ≠ []) (hrdot : rest ≠ ".".toList) :
    prepareMountOne mounts p
      = .ok ⟨"bind".toList, m.source ++ '/' :: rest, dt ++ '/' :: rest,
          ["ro".toList, "rbind".toList]⟩ := by
  have habs : isAbsPath p = true := by
    rw [hp, hd]
    rfl
  have hrel : relPath m.destination p = rest := by
    rw [hp]
    exact relPath_under m.destination rest hrne
  have hjoin : joinPath m.source rest = m.source ++ '/' :: rest := by
    rw [joinPath, if_neg hrdot, if_neg hs, if_neg hrne]
  have htrim : trimLeftSlashes p = dt ++ '/' :: rest := by
    rw [hp, hd]
    have hcons : ('/' :: dt) ++ '/' :: rest = '/' :: (dt ++ '/' :: rest) := rfl
    rw [hcons]
    apply trimLeftSlashes_cons
    rcases dt with _ | ⟨d0, dt'⟩
    · exact absurd rfl hdne
    · simpa using hdh
  simp only [prepareMountOne, habs, Bool.true_eq_false, not_true_eq_false, if_false, hfind,
    hrel, hjoin, htrim, not_true, Bool.not_true]

/-- C9: for an absolute include-mount path `p` lying under the chosen
container mount's destination `d` (with source `s`), `prepareMounts`
produces at position `i` a bind mount with host-side source
`join(s, rel(d, p)) = s ++ "/" ++ rest`, target `p` minus its leading
slash, and options exactly `[ro, rbind]`; and the mount chosen by
`findMount` has the longest destination among all mounts whose
destination prefixes `p`. -/
theorem prepareMounts_spec (mounts : List ContainerMount) (ps : List (List Char))
    (outs : List BindMount) (i : Nat) (hi : i < ps.length)
    (m : ContainerMount) (dt rest : List Char)
    (hok : prepareMounts mounts ps = .ok outs)
    (hfind : findMount mounts (ps.get ⟨i, hi⟩) = some m)
    (hd : m.destination = '/' :: dt)
    (hdne : dt ≠ [])
    (hdh : dt.head? ≠ some '/')
    (hs : m.source ≠ [])
    (hp : ps.get ⟨i, hi⟩ = m.destination ++ '/' :: rest)
    (hrne : rest ≠ []) (hrdot : rest ≠ ".".toList) :
    ∃ hlen : i < outs.length,
      outs.get ⟨i, hlen⟩ = ⟨"bind".toList, m.source ++ '/' :: rest, dt ++ '/' :: rest,
          ["ro".toList, "rbind".toList]⟩
      ∧ ∀ m' ∈ mounts, m'.destination.isPrefixOf (ps.get ⟨i, hi⟩) = true →
          m'.destination.length ≤ m.destination.length := by
  have hidx := prepareMounts_ok_get mounts ps outs hok
  have hlen : i < outs.length := by rw [hidx.1]; exact hi
  refine ⟨hlen, ?_, (findMount_spec mounts (ps.get ⟨i, hi⟩) m hfind).2.2⟩
  have hone := hidx.2 i hi hlen
  rw [prepareMountOne_under mounts (ps.get ⟨i, hi⟩) m dt rest hfind hd hdne hdh hs hp
    hrne hrdot] at hone
  exact (Except.ok.inj hone).symm

/-- C9 witness: the `TestPrepareMounts` scenario — mount
`/host/ossfs → /guest/ossfs` with include path `/guest/ossfs/foo` yields
the bind mount `/host/ossfs/foo → guest/ossfs/foo` with options
`[ro, rbind]`. -/
theorem prepareMounts_spec_witness :
    prepareMounts [ContainerMount.mk ("/host/ossfs".toList) ("/guest/ossfs".toList)]
        [("/guest/ossfs/foo".toList)]
      = .ok [BindMount.mk ("bind".toList) ("/host/ossfs/foo".toList)
              ("guest/ossfs/foo".toList) ["ro".toList, "rbind".toList]]
    ∧ BindMount.mk ("bind".toList) ("/host/ossfs/foo".toList)
          ("guest/ossfs/foo".toList) ["ro".toList, "rbind".toList]
        = BindMount.mk ("bind".toList)
            (("/host/ossfs".toList) ++ '/' :: ("foo".toList))
            (("guest/ossfs".toList) ++ '/' :: ("foo".toList))
            ["ro".toList, "rbind".toList] := by
  have hok : prepareMounts [ContainerMount.mk ("/host/ossfs".toList) ("/guest/ossfs".toList)]
      [("/guest/ossfs/foo".toList)]
      = .ok [BindMount.mk ("bind".toList) ("/host/ossfs/foo".toList)
              ("guest/ossfs/foo".toList) ["ro".toList, "rbind".toList]] := by rfl
  obtain ⟨hlen, heq, hmax⟩ := prepareMounts_spec
    [ContainerMount.mk ("/host/ossfs".toList) ("/guest/ossfs".toList)]
    [("/guest/ossfs/foo".toList)]
    [BindMount.mk ("bind".toList) ("/host/ossfs/foo".toList)
      ("guest/ossfs/foo".toList) ["ro".toList, "rbind".toList]]
    0 (by decide)
    (ContainerMount.mk ("/host/ossfs".toList) ("/guest/ossfs".toList))
    ("guest/ossfs".toList) ("foo".toList)
    hok (by rfl) (by rfl) (by decide) (by decide) (by decide) (by rfl) (by decide) (by decide)
  exact ⟨hok, heq⟩

theorem tagSplitAux_none (l : List Char) (h : ':' ∉ l) : tagSplitAux l = none := by
  induction l with
  | nil => rfl
  | cons a rest ih =>
    have h1 : ':' ∉ rest := fun hm => h (List.mem_cons_of_mem _ hm)
    have h2 : ¬ (a = ':') := fun hc => h (by rw [hc]; exact List.mem_cons_self _ _)
    simp only [tagSplitAux, ih h1, if_neg h2]

theorem tagSplitAux_eq_none (l : List Char) (h : tagSplitAux l = none) : ':' ∉ l := by
  induction l with
  | nil => simp
  | cons a rest ih =>
    simp only [tagSplitAux] at h
    rcases hr : tagSplitAux rest with _ | pr
    · rw [hr] at h
      by_cases hac : a = ':'
      · rw [if_pos hac] at h
        exact Option.noConfusion h
      · intro hmem
        rcases List.mem_cons.mp hmem with hca | hcr
        · exact hac hca.symm
        · exact ih hr hcr
    · rw [hr] at h
      exact Option.noConfusion h

theorem tagSplitAux_append (p t : List Char) (ht : ':' ∉ t) :
    tagSplitAux (p ++ ':' :: t) = some (p, t) := by
  induction p with
  | nil =>
    simp [tagSplitAux, tagSplitAux_none t ht]
  | cons a p' ih =>
    simp only [List.cons_append, tagSplitAux, List.append_eq, ih]

theorem tagSplitAux_sound (l : List Char) :
    ∀ p t, tagSplitAux l = some (p, t) → l = p ++ ':' :: t ∧ ':' ∉ t := by
  induction l with
  | nil => intro p t h; exact Option.noConfusion h
  | cons a rest ih =>
    intro p t h
    simp only [tagSplitAux] at h
    rcases hr : tagSplitAux rest with _ | ⟨p', t'⟩
    · rw [hr] at h
      by_cases hac : a = ':'
      · rw [if_pos hac] at h
        rw [Option.some.injEq, Prod.mk.injEq] at h
        obtain ⟨hp, ht⟩ := h
        subst hp
        subst ht
        subst hac
        exact ⟨rfl, tagSplitAux_eq_none rest hr⟩
      · rw [if_neg hac] at h
        exact Option.noConfusion h
    · rw [hr] at h
      rw [Option.some.injEq, Prod.mk.injEq] at h
      obtain ⟨hp, ht⟩ := h
      obtain ⟨hl', ht'⟩ := ih p' t' hr
      subst hp
      subst ht
      rw [hl']
      exact ⟨rfl, ht'⟩

theorem takeWhile_append_slash (rem : List Char) :
    ∀ d : List Char, '/' ∉ d →
      (d ++ '/' :: rem).takeWhile (fun c => c ≠ '/') = d
      ∧ (d ++ '/' :: rem).dropWhile (fun c => c ≠ '/') = '/' :: rem := by
  intro d
  induction d with
  | nil =>
    intro _
    constructor
    · simp only [List.nil_append, List.takeWhile_cons]
      rw [if_neg (by decide)]
    · simp only [List.nil_append, List.dropWhile_cons]
      rw [if_neg (by decide)]
  | cons a d' ih =>
    intro hd
    have ha : ¬ (a = '/') := fun hc => hd (by rw [hc]; exact List.mem_cons_self _ _)
    have hd' : '/' ∉ d' := fun hm => hd (List.mem_cons_of_mem _ hm)
    have hih := ih hd'
    constructor
    · simp only [List.cons_append, List.takeWhile_cons]
      rw [if_pos (decide_eq_true ha), hih.1]
    · simp only [List.cons_append, List.dropWhile_cons]
      rw [if_pos (decide_eq_true ha), hih.2]

theorem splitDockerDomain_normalized (d rem : List Char) (hd1 : '/' ∉ d)
    (hd2 : '.' ∈ d ∨ ':' ∈ d ∨ d = localhostDomain) (hd3 : d ≠ legacyDefaultDomain)
    (hd4 : d = defaultDomain → '/' ∈ rem) :
    splitDockerDomain (d ++ '/' :: rem) = (d, rem) := by
  have htk := takeWhile_append_slash rem d hd1
  simp only [splitDockerDomain, htk.1, htk.2]
  have hcond : ¬ (('/' :: rem : List Char) = []
      ∨ (¬('.' ∈ d ∨ ':' ∈ d) ∧ d ≠ localhostDomain)) := by
    rintro (habs | ⟨hnc, hnl⟩)
    · exact List.noConfusion habs
    · rcases hd2 with h | h | h
      · exact hnc (Or.inl h)
      · exact hnc (Or.inr h)
      · exact hnl h
  rw [if_neg hcond]
  simp only [List.tail_cons]
  rw [if_neg hd3]
  have hlib : ¬ (d = defaultDomain ∧ '/' ∉ rem) := by
    rintro ⟨hdd, hnr⟩
    exact hnr (hd4 hdd)
  rw [if_neg hlib]

theorem parseNamed_normalized (d p t : List Char)
    (hd1 : '/' ∉ d)
    (hd2 : '.' ∈ d ∨ ':' ∈ d ∨ d = localhostDomain)
    (hd3 : d ≠ legacyDefaultDomain)
    (hd4 : d = defaultDomain → '/' ∈ p)
    (hp5 : p ≠ []) (ht1 : t ≠ []) (ht2 : '/' ∉ t) (ht3 : ':' ∉ t) :
    parseNamed (d ++ '/' :: (p ++ ':' :: t)) = .ok ⟨d, p, some t⟩ := by
  have hsd := splitDockerDomain_normalized d (p ++ ':' :: t) hd1 hd2 hd3
    (fun hdd => List.mem_append.mpr (Or.inl (hd4 hdd)))
  simp only [parseNamed, hsd, tagSplitAux_append p t ht3]
  have hval : ¬ (t = [] ∨ '/' ∈ t ∨ p = []) := by
    rintro (h | h | h)
    · exact ht1 h
    · exact ht2 h
    · exact hp5 h
  rw [if_neg hval]

theorem splitDockerDomain_invariants (x : List Char) :
    '/' ∉ (splitDockerDomain x).1
    ∧ ('.' ∈ (splitDockerDomain x).1 ∨ ':' ∈ (splitDockerDomain x).1
        ∨ (splitDockerDomain x).1 = localhostDomain)
    ∧ (splitDockerDomain x).1 ≠ legacyDefaultDomain
    ∧ ((splitDockerDomain x).1 = defaultDomain → '/' ∈ (splitDockerDomain x).2)
    ∧ (∀ ch, ch ∈ (splitDockerDomain x).1 → ch ∈ x ∨ ch ∈ defaultDomain)
    ∧ (∀ ch, ch ∈ (splitDockerDomain x).2 → ch ∈ x ∨ ch ∈ ("library/".toList)) := by
  have htksub : ∀ ch, ch ∈ x.takeWhile (fun c => c ≠ '/') → ch ∈ x :=
    fun ch hm => (List.takeWhile_sublist _).subset hm
  have htlsub : ∀ ch, ch ∈ (x.dropWhile (fun c => c ≠ '/')).tail → ch ∈ x :=
    fun ch hm => (List.dropWhile_sublist _).subset ((List.tail_sublist _).subset hm)
  have htknoslash : '/' ∉ x.takeWhile (fun c => c ≠ '/') := by
    intro hmem
    have := List.mem_takeWhile_imp hmem
    simp at this
  have hdd1 : '/' ∉ defaultDomain := by decide
  have hdd2 : '.' ∈ defaultDomain := by decide
  have hdd3 : defaultDomain ≠ legacyDefaultDomain := by decide
  by_cases hcond : (x.dropWhile (fun c => c ≠ '/') = []
      ∨ (¬('.' ∈ x.takeWhile (fun c => c ≠ '/') ∨ ':' ∈ x.takeWhile (fun c => c ≠ '/'))
        ∧ x.takeWhile (fun c => c ≠ '/') ≠ localhostDomain))
  · have hleg : ¬ (defaultDomain = legacyDefaultDomain) := by decide
    by_cases hslash : '/' ∈ x
    · have heq : splitDockerDomain x = (defaultDomain, x) := by
        simp only [splitDockerDomain, if_pos hcond, if_neg hleg]
        split
      
        · rename_i hfalse
          exact absurd hslash hfalse.2
        · rfl
      rw [heq]
      exact ⟨hdd1, Or.inl hdd2, hdd3, fun _ => hslash,
        fun ch h => Or.inr h, fun ch h => Or.inl h⟩
    · have heq : splitDockerDomain x = (defaultDomain, "library/".toList ++ x) := by
        simp only [splitDockerDomain, if_pos hcond, if_neg hleg]
        split
        · rfl
        · rename_i hfalse
          exact absurd (by exact ⟨by trivial, hslash⟩) hfalse
      rw [heq]
      refine ⟨hdd1, Or.inl hdd2, hdd3, fun _ => ?_,
        fun ch h => Or.inr h, fun ch h => ?_⟩
      · exact List.mem_append.mpr (Or.inl (by decide))
      · rcases List.mem_append.mp h with h | h
        · exact Or.inr h
        · exact Or.inl h
  · have hqual : '.' ∈ x.takeWhile (fun c => c ≠ '/') ∨ ':' ∈ x.takeWhile (fun c => c ≠ '/')
        ∨ x.takeWhile (fun c => c ≠ '/') = localhostDomain := by
      by_cases hq1 : '.' ∈ x.takeWhile (fun c => c ≠ '/') ∨ ':' ∈ x.takeWhile (fun c => c ≠ '/')
      · rcases hq1 with h | h
        · exact Or.inl h
        · exact Or.inr (Or.inl h)
      · by_cases hq2 : x.takeWhile (fun c => c ≠ '/') = localhostDomain
        · exact Or.inr (Or.inr hq2)
        · exact absurd (Or.inr ⟨hq1, hq2⟩) hcond
    by_cases hleg : x.takeWhile (fun c => c ≠ '/') = legacyDefaultDomain
    · by_cases hslash : '/' ∈ (x.dropWhile (fun c => c ≠ '/')).tail
      · have heq : splitDockerDomain x
            = (defaultDomain, (x.dropWhile (fun c => c ≠ '/')).tail) := by
          simp only [splitDockerDomain, if_neg hcond, if_pos hleg]
          split
          · rename_i hfalse
            exact absurd hslash hfalse.2
          · rfl
        rw [heq]
        exact ⟨hdd1, Or.inl hdd2, hdd3, fun _ => hslash,
          fun ch h => Or.inr h, fun ch h => Or.inl (htlsub ch h)⟩
      · have heq : splitDockerDomain x
            = (defaultDomain, "library/".toList ++ (x.dropWhile (fun c => c ≠ '/')).tail) := by
          simp only [splitDockerDomain, if_neg hcond, if_pos hleg]
          split
          · rfl
          · rename_i hfalse
            exact absurd (by exact ⟨by trivial, hslash⟩) hfalse
        rw [heq]
        refine ⟨hdd1, Or.inl hdd2, hdd3, fun _ => ?_,
          fun ch h => Or.inr h, fun ch h => ?_⟩
        · exact List.mem_append.mpr (Or.inl (by decide))
        · rcases List.mem_append.mp h with h | h
          · exact Or.inr h
          · exact Or.inl (htlsub ch h)
    · by_cases hdd : x.takeWhile (fun c => c ≠ '/') = defaultDomain
      · by_cases hslash : '/' ∈ (x.dropWhile (fun c => c ≠ '/')).tail
        · have heq : splitDockerDomain x
              = (x.takeWhile (fun c => c ≠ '/'), (x.dropWhile (fun c => c ≠ '/')).tail) := by
            simp only [splitDockerDomain, if_neg hcond, if_neg hleg]
            split
            · rename_i hfalse
              exact absurd hslash hfalse.2
            · rfl
          rw [heq]
          exact ⟨htknoslash, hqual, hleg, fun _ => hslash,
            fun ch h => Or.inl (htksub ch h), fun ch h => Or.inl (htlsub ch h)⟩
        · have heq : splitDockerDomain x
              = (x.takeWhile (fun c => c ≠ '/'),
                  "library/".toList ++ (x.dropWhile (fun c => c ≠ '/')).tail) := by
            simp only [splitDockerDomain, if_neg hcond, if_neg hleg]
            split
            · rfl
            · rename_i hfalse
              exact absurd ⟨hdd, hslash⟩ hfalse
          rw [heq]
          refine ⟨htknoslash, hqual, hleg, fun _ => ?_,
            fun ch h => Or.inl (htksub ch h), fun ch h => ?_⟩
          · exact List.mem_append.mpr (Or.inl (by decide))
          · rcases List.mem_append.mp h with h | h
            · exact Or.inr h
            · exact Or.inl (htlsub ch h)
      · have heq : splitDockerDomain x
            = (x.takeWhile (fun c => c ≠ '/'), (x.dropWhile (fun c => c ≠ '/')).tail) := by
          simp only [splitDockerDomain, if_neg hcond, if_neg hleg]
          split
          · rename_i hfalse
            exact absurd hfalse.1 hdd
          · rfl
        rw [heq]
        exact ⟨htknoslash, hqual, hleg, fun h => absurd h hdd,
          fun ch h => Or.inl (htksub ch h), fun ch h => Or.inl (htlsub ch h)⟩

theorem parseNamed_invariants (x : List Char) (n : NamedRef) (h : parseNamed x = .ok n) :
    '/' ∉ n.domain
    ∧ ('.' ∈ n.domain ∨ ':' ∈ n.domain ∨ n.domain = localhostDomain)
    ∧ n.domain ≠ legacyDefaultDomain
    ∧ (n.domain = defaultDomain → '/' ∈ n.path)
    ∧ n.path ≠ []
    ∧ (∀ t, n.tag = some t → t ≠ [] ∧ '/' ∉ t ∧ ':' ∉ t)
    ∧ (∀ ch, ch ∈ n.domain → ch ∈ x ∨ ch ∈ defaultDomain)
    ∧ (∀ ch, ch ∈ n.path → ch ∈ x ∨ ch ∈ ("library/".toList))
    ∧ (∀ t, n.tag = some t → ∀ ch, ch ∈ t → ch ∈ x ∨ ch ∈ ("library/".toList)) := by
  have hinv := splitDockerDomain_invariants x
  rcases hsd : splitDockerDomain x with ⟨d, r⟩
  rw [hsd] at hinv
  simp only [parseNamed, hsd] at h
  rcases htag : tagSplitAux r with _ | ⟨p, t⟩
  · rw [htag] at h
    by_cases hre : r = []
    · rw [if_pos hre] at h
      exact Except.noConfusion h
    · rw [if_neg hre] at h
      have hn := Except.ok.inj h
      subst hn
      refine ⟨hinv.1, hinv.2.1, hinv.2.2.1, hinv.2.2.2.1, hre,
        fun t ht => Option.noConfusion ht, hinv.2.2.2.2.1, hinv.2.2.2.2.2,
        fun t ht => Option.noConfusion ht⟩
  · simp only [htag] at h
    obtain ⟨hrdecomp, htnc⟩ := tagSplitAux_sound r p t htag
    by_cases hval : (t = [] ∨ '/' ∈ t ∨ p = [])
    · rw [if_pos hval] at h
      exact Except.noConfusion h
    · rw [if_neg hval] at h
      have hn := Except.ok.inj h
      subst hn
      have ht1 : t ≠ [] := fun hc => hval (Or.inl hc)
      have ht2 : '/' ∉ t := fun hc => hval (Or.inr (Or.inl hc))
      have hp5 : p ≠ [] := fun hc => hval (Or.inr (Or.inr hc))
      have hpsub : ∀ ch, ch ∈ p → ch ∈ r := by
        intro ch hc
        rw [hrdecomp]
        exact List.mem_append.mpr (Or.inl hc)
      have htsub : ∀ ch, ch ∈ t → ch ∈ r := by
        intro ch hc
        rw [hrdecomp]
        exact List.mem_append.mpr (Or.inr (List.mem_cons_of_mem _ hc))
      refine ⟨hinv.1, hinv.2.1, hinv.2.2.1, ?_, hp5, ?_, hinv.2.2.2.2.1, ?_, ?_⟩
      · intro hdd
        have hr := hinv.2.2.2.1 hdd
        rw [hrdecomp] at hr
        rcases List.mem_append.mp hr with hh | hh
        · exact hh
        · rcases List.mem_cons.mp hh with hh | hh
          · exact absurd hh (by decide)
          · exact absurd hh ht2
      · intro t' ht'
        have := Option.some.inj ht'
        subst this
        exact ⟨ht1, ht2, htnc⟩
      · intro ch hc
        exact hinv.2.2.2.2.2 ch (hpsub ch hc)
      · intro t' ht' ch hc
        have := Option.some.inj ht'
        subst this
        exact hinv.2.2.2.2.2 ch (htsub ch hc)

theorem refString_shape (d p t : List Char) :
    refString ⟨d, p, some t⟩ = d ++ '/' :: (p ++ ':' :: t) := by
  simp [refString, List.append_assoc]

theorem appendSuffix_fixed (d p t : List Char)
    (hd1 : '/' ∉ d)
    (hd2 : '.' ∈ d ∨ ':' ∈ d ∨ d = localhostDomain)
    (hd3 : d ≠ legacyDefaultDomain)
    (hd4 : d = defaultDomain → '/' ∈ p)
    (hp5 : p ≠ []) (ht1 : t ≠ []) (ht2 : '/' ∉ t) (ht3 : ':' ∉ t)
    (hat : '@' ∉ d ∧ '@' ∉ p ∧ '@' ∉ t) :
    AppendNydusSuffix (refString ⟨d, p, some t⟩ ++ NydusRefSuffix)
      = .ok (refString ⟨d, p, some t⟩ ++ NydusRefSuffix) := by
  have hshape : refString ⟨d, p, some t⟩ ++ NydusRefSuffix
      = d ++ '/' :: (p ++ ':' :: (t ++ NydusRefSuffix)) := by
    rw [refString_shape]
    simp [List.append_assoc]
  have ht1' : t ++ NydusRefSuffix ≠ [] := by
    intro hc
    exact ht1 (List.append_eq_nil.mp hc).1
  have ht2' : '/' ∉ t ++ NydusRefSuffix := by
    intro hm
    rcases List.mem_append.mp hm with hm | hm
    · exact ht2 hm
    · revert hm
      decide
  have ht3' : ':' ∉ t ++ NydusRefSuffix := by
    intro hm
    rcases List.mem_append.mp hm with hm | hm
    · exact ht3 hm
    · revert hm
      decide
  have hparse := parseNamed_normalized d p (t ++ NydusRefSuffix) hd1 hd2 hd3 hd4 hp5 ht1' ht2' ht3'
  have hat' : '@' ∉ (d ++ '/' :: (p ++ ':' :: (t ++ NydusRefSuffix))) := by
    intro hm
    rcases List.mem_append.mp hm with hm | hm
    · exact hat.1 hm
    · rcases List.mem_cons.mp hm with hm | hm
      · exact absurd hm (by decide)
      · rcases List.mem_append.mp hm with hm | hm
        · exact hat.2.1 hm
        · rcases List.mem_cons.mp hm with hm | hm
          · exact absurd hm (by decide)
          · rcases List.mem_append.mp hm with hm | hm
            · exact hat.2.2 hm
            · revert hm
              decide
  have hre : refString ⟨d, p, some (t ++ NydusRefSuffix)⟩
      = (d ++ '/' :: (p ++ ':' :: t)) ++ NydusRefSuffix := by
    rw [refString_shape]
    simp [List.append_assoc]
  have hsuf : NydusRefSuffix.isSuffixOf (refString (tagNameOnly ⟨d, p, some (t ++ NydusRefSuffix)⟩)) = true := by
    have htno : tagNameOnly ⟨d, p, some (t ++ NydusRefSuffix)⟩
        = ⟨d, p, some (t ++ NydusRefSuffix)⟩ := rfl
    rw [htno, hre]
    rw [List.isSuffixOf_iff_suffix]
    exact List.suffix_append _ _
  rw [hshape]
  rw [AppendNydusSuffix]
  rw [if_neg hat']
  simp only [hparse]
  rw [if_pos hsuf]

/-- C8: `AppendNydusSuffix` is idempotent — applying it to its own
successful output returns that output unchanged. -/
theorem AppendNydusSuffix_idempotent (x y : List Char)
    (h : AppendNydusSuffix x = .ok y) :
    AppendNydusSuffix y = .ok y := by
  rw [AppendNydusSuffix] at h
  by_cases hat : '@' ∈ x
  · rw [if_pos hat] at h
    exact Except.noConfusion h
  · rw [if_neg hat] at h
    rcases hp : parseNamed x with e | n
    · simp only [hp] at h
      exact Except.noConfusion h
    · simp only [hp] at h
      by_cases hsuf : NydusRefSuffix.isSuffixOf (refString (tagNameOnly n)) = true
      · rw [if_pos hsuf] at h
        have hxy := Except.ok.inj h
        subst hxy
        rw [AppendNydusSuffix]
        rw [if_neg hat]
        simp only [hp]
        rw [if_pos hsuf]
      · rw [if_neg hsuf] at h
        have hy := Except.ok.inj h
        subst hy
        obtain ⟨hd1, hd2, hd3, hd4, hp5, htagp, hchd, hchp, hcht⟩ := parseNamed_invariants x n hp
        have hatd : '@' ∉ n.domain := by
          intro hm
          rcases hchd '@' hm with hm2 | hm2
          · exact hat hm2
          · revert hm2
            decide
        have hatp : '@' ∉ n.path := by
          intro hm
          rcases hchp '@' hm with hm2 | hm2
          · exact hat hm2
          · revert hm2
            decide
        cases hnt : n.tag with
        | none =>
          have htno : tagNameOnly n = ⟨n.domain, n.path, some ("latest".toList)⟩ := by
            rw [tagNameOnly, hnt]
          rw [htno]
          exact appendSuffix_fixed n.domain n.path ("latest".toList) hd1 hd2 hd3 hd4 hp5
            (by decide) (by decide) (by decide) ⟨hatd, hatp, by decide⟩
        | some t0 =>
          have htno : tagNameOnly n = ⟨n.domain, n.path, some t0⟩ := by
            rcases n with ⟨dd, pp, tt⟩
            have h2 : tt = some t0 := hnt
            subst h2
            rfl
          rw [htno]
          obtain ⟨ht1, ht2, ht3⟩ := htagp t0 hnt
          have hatt : '@' ∉ t0 := by
            intro hm
            rcases hcht t0 hnt '@' hm with hm2 | hm2
            · exact hat hm2
            · revert hm2
              decide
          exact appendSuffix_fixed n.domain n.path t0 hd1 hd2 hd3 hd4 hp5
            ht1 ht2 ht3 ⟨hatd, hatp, hatt⟩

/-- C8 witness: the S2 scenario — appending the suffix to
`example.com/lib/foo:1.2` yields `example.com/lib/foo:1.2_nydus_v2`, and
applying append-suffix to that output returns it unchanged. -/
theorem AppendNydusSuffix_idempotent_witness :
    AppendNydusSuffix ("example.com/lib/foo:1.2".toList)
        = .ok ("example.com/lib/foo:1.2_nydus_v2".toList)
    ∧ AppendNydusSuffix ("example.com/lib/foo:1.2_nydus_v2".toList)
        = .ok ("example.com/lib/foo:1.2_nydus_v2".toList) := by
  have h1 : AppendNydusSuffix ("example.com/lib/foo:1.2".toList)
      = .ok ("example.com/lib/foo:1.2_nydus_v2".toList) := by rfl
  exact ⟨h1, AppendNydusSuffix_idempotent ("example.com/lib/foo:1.2".toList)
    ("example.com/lib/foo:1.2_nydus_v2".toList) h1⟩
